import Mathlib

/-!
Verification development for the InstFS SFZ-to-JSON converter
(`src/scripts/sfz_to_json.py`).  The Python source is shallowly embedded:
pure helpers become Lean functions on `List Char` / `String`, the parser
object becomes an explicit state record threaded through a step function,
Python dictionaries become association lists with in-place update, and the
recursive include mechanism becomes a well-founded recursion over the
number of not-yet-processed files.
-/

namespace InstFS

/-! ### Character classes and basic string helpers -/

/-- Python `str.isspace` characters as used by `\s` and `str.strip`
(ASCII subset; the inputs of interest are ASCII). -/
def isPyWs (c : Char) : Bool :=
  c = ' ' || c = '\t' || c = '\n' || c = '\r' || c = '\x0b' || c = '\x0c'

/-- Python regex `\w` word characters (ASCII subset). -/
def isPyWord (c : Char) : Bool :=
  c.isAlphanum || c = '_'

/-- Python `str.strip()` on a character list: drop whitespace from both ends. -/
def pyStripL (l : List Char) : List Char :=
  ((l.dropWhile isPyWs).reverse.dropWhile isPyWs).reverse

/-- Python `str.strip()`. -/
def pyStrip (s : String) : String :=
  ⟨pyStripL s.toList⟩

/-- Python slice `l[a:b]` (with the usual clamping). -/
def sliceL (l : List Char) (a b : Nat) : List Char :=
  (l.take b).drop a

/-- Does `pat` occur as a contiguous sublist of `l`?  Models Python `pat in s`
for nonempty `pat`. -/
def containsSub (l pat : List Char) : Bool :=
  match l with
  | [] => pat.isPrefixOf []
  | _ :: rest => pat.isPrefixOf l || containsSub rest pat

/-- The prefix of `l` before the first occurrence of `pat`; the whole list if
`pat` does not occur.  Models Python `s.split(pat)[0]`. -/
def splitFirstPre (l pat : List Char) : List Char :=
  match l with
  | [] => []
  | c :: rest => if pat.isPrefixOf l then [] else c :: splitFirstPre rest pat

/-- One step of Python `str.replace`: fuelled scanner replacing every
non-overlapping occurrence of `pat` left to right.  The fuel is consumed one
unit per emitted position; `l.length` fuel suffices for nonempty `pat`. -/
def replaceGo (pat rep : List Char) : Nat → List Char → List Char
  | _, [] => []
  | 0, l => l
  | fuel + 1, c :: rest =>
    if pat.isPrefixOf (c :: rest) then
      rep ++ replaceGo pat rep fuel ((c :: rest).drop pat.length)
    else
      c :: replaceGo pat rep fuel rest

/-- Python `s.replace(pat, rep)` for nonempty `pat` (every caller in the
source uses a nonempty pattern; for an empty pattern we return `s`
unchanged). -/
def replaceAll (s pat rep : String) : String :=
  if pat.toList = [] then s
  else ⟨replaceGo pat.toList rep.toList (s.toList.length + 1) s.toList⟩

/-! ### Attribute values and `parse_value` -/

/-- A resolved attribute value: Python `int`, `float` (modelled as an exact
rational) or `str`. -/
inductive Value where
  | int (n : Int)
  | float (q : Rat)
  | str (s : String)
deriving DecidableEq, Repr

/-- Digit run to a natural number. -/
def digitsToNat (ds : List Char) : Nat :=
  ds.foldl (fun a c => a * 10 + (c.toNat - '0'.toNat)) 0

/-- Python `int(s)` on an already-stripped string: optional sign followed by a
nonempty digit run.  (Modelled subset: no underscores between digits, no
non-ASCII digits.) -/
def pyIntL (l : List Char) : Option Int :=
  match l with
  | '+' :: r => if r ≠ [] ∧ r.all Char.isDigit then some (digitsToNat r : Int) else none
  | '-' :: r => if r ≠ [] ∧ r.all Char.isDigit then some (-(digitsToNat r : Int)) else none
  | _ => if l ≠ [] ∧ l.all Char.isDigit then some (digitsToNat l : Int) else none

/-- Unsigned decimal `a.b` (either digit run possibly empty, at least one
digit in total) as an exact rational. -/
def pyFloatCore (l : List Char) : Option Rat :=
  let ip := l.takeWhile Char.isDigit
  let rest := l.drop ip.length
  match rest with
  | [] => if ip ≠ [] then some (mkRat (digitsToNat ip : Int) 1) else none
  | '.' :: frac =>
    if frac.all Char.isDigit ∧ (ip ≠ [] ∨ frac ≠ []) then
      some (mkRat (digitsToNat ip * 10 ^ frac.length + digitsToNat frac : Int) (10 ^ frac.length))
    else none
  | _ => none

/-- Python `float(s)` on an already-stripped string.  (Modelled subset: sign
and decimal digits with an optional decimal point; no exponent notation, no
`inf`/`nan`, no underscores.  `parse_value` only attempts this branch when the
text contains a `.`.) -/
def pyFloatL (l : List Char) : Option Rat :=
  match l with
  | '+' :: r => pyFloatCore r
  | '-' :: r => (pyFloatCore r).map Rat.neg
  | _ => pyFloatCore l

/-- `sfz_to_json.py`, `parse_value`: strip, remove one pair of surrounding
double quotes, then try `float` if a `.` is present else `int`, falling back
to the (stripped, unquoted) string. -/
def parseValueL (l0 : List Char) : Value :=
  let l1 := pyStripL l0
  let l :=
    if l1.head? = some '"' ∧ l1.getLast? = some '"' then (l1.drop 1).dropLast
    else l1
  if l.contains '.' then
    match pyFloatL l with
    | some q => .float q
    | none => .str ⟨l⟩
  else
    match pyIntL l with
    | some n => .int n
    | none => .str ⟨l⟩

/-- Python `parse_value` on a `String`. -/
def parse_value (s : String) : Value :=
  parseValueL s.toList

/-! ### The opcode tokenizer `extract_opcodes` -/

/-- `line.find('=', i)`: index of the first `'='` at or after position `i`.
`l` is the suffix of the line starting at absolute position `i`. -/
def findEqGo : List Char → Nat → Option Nat
  | [], _ => none
  | c :: rest, i => if c = '=' then some i else findEqGo rest (i + 1)

/-- `line.rfind(' ', 0, stop)` run on `line.take stop`: position of the last
space strictly before `stop`, scanning forward and keeping the last hit. -/
def rfindSpaceGo : List Char → Nat → Option Nat → Option Nat
  | [], _, acc => acc
  | c :: rest, i, acc => rfindSpaceGo rest (i + 1) (if c = ' ' then some i else acc)

/-- `line.rfind(' ', 0, stop)`. -/
def rfindSpace (l : List Char) (stop : Nat) : Option Nat :=
  rfindSpaceGo (l.take stop) 0 none

/-- Does the regex `\s+\w+=` match at the head of `l`?  Because `\s`, `\w`
and `'='` are pairwise disjoint character classes, the backtracking regex
matches exactly when the maximal whitespace run is nonempty, the following
maximal word run is nonempty, and the next character is `'='`. -/
def matchWWE (l : List Char) : Bool :=
  match l with
  | [] => false
  | c :: rest =>
    isPyWs c &&
      (match rest.dropWhile isPyWs with
       | [] => false
       | d :: r2 =>
         isPyWord d &&
           (match (d :: r2).dropWhile isPyWord with
            | '=' :: _ => true
            | _ => false))

/-- `re.search(r"\s+\w+=", …)`: offset of the leftmost match of the pattern
in `l`, if any. -/
def searchWWEGo : List Char → Nat → Option Nat
  | [], _ => none
  | c :: rest, i => if matchWWE (c :: rest) then some i else searchWWEGo rest (i + 1)

/-- Leftmost match offset of `\s+\w+=` in `l`. -/
def searchWWE (l : List Char) : Option Nat :=
  searchWWEGo l 0

/-- `key_start = line.rfind(" ", 0, eq)` followed by the slice start
`key_start + 1` (which is `0` when `rfind` returned `-1`). -/
def keyStartOf (line : List Char) (eq : Nat) : Nat :=
  match rfindSpace line eq with
  | some k => k + 1
  | none => 0

/-- The `while` loop of `extract_opcodes`, with absolute scan position `i`
into the full line.  Fuelled: every iteration strictly advances `i`, so
`line.length + 1` units of fuel always suffice. -/
def extractGo (line : List Char) : Nat → Nat → List (String × String)
  | 0, _ => []
  | fuel + 1, i =>
    match findEqGo (line.drop i) i with
    | none => []
    | some eq =>
      let key : String := ⟨pyStripL (sliceL line (keyStartOf line eq) eq)⟩
      match searchWWE (line.drop (eq + 1)) with
      | some m =>
        let valueEnd := eq + 1 + m
        let value : String := ⟨pyStripL (sliceL line (eq + 1) valueEnd)⟩
        (key, value) :: extractGo line fuel valueEnd
      | none =>
        [(key, ⟨pyStripL (sliceL line (eq + 1) line.length)⟩)]

/-- `extract_opcodes` on a character list. -/
def extractOps (l : List Char) : List (String × String) :=
  extractGo l (l.length + 1) 0

/-- `sfz_to_json.py`, `extract_opcodes`: split one line into ordered
`(key, value)` pairs, allowing values that contain spaces. -/
def extract_opcodes (line : String) : List (String × String) :=
  extractOps line.toList

/-! ### The parser state (`SFZParser.__init__` and `process_line`)

Python dictionaries are modelled as association lists with in-place update:
`dset` replaces the value of an existing key at its original position and
appends new keys, matching insertion-ordered `dict` assignment.  The fields
`current_group` / `current_region` of the Python object are references into
`data["groups"]`; whenever they are not `None` they point at the last group
and at the last region of the last group respectively (both are only ever set
right after the referent is appended, and groups/regions are never removed),
so they are modelled by the booleans `has_group` / `has_region`. -/

/-- Association-list model of a Python `dict` from opcode name to value. -/
abbrev Dict := List (String × Value)

/-- `d.get(k)`. -/
def dget (d : Dict) (k : String) : Option Value :=
  (d.find? (fun e => e.1 == k)).map (·.2)

/-- `d[k] = v`: replace in place if the key exists, else append. -/
def dset (d : Dict) (k : String) (v : Value) : Dict :=
  if d.any (fun e => e.1 == k) then
    d.map (fun e => if e.1 == k then (k, v) else e)
  else d ++ [(k, v)]

/-- `d.update(m)`: assign every entry of `m` into `d`, in order. -/
def dupdate (d : Dict) (m : Dict) : Dict :=
  m.foldl (fun acc e => dset acc e.1 e.2) d

/-- The snapshot overlay built at region creation:
`region = {}; region.update(global); region.update(group["opcodes"])`. -/
def snapshotDict (glob grp : Dict) : Dict :=
  dupdate (dupdate [] glob) grp

/-- Group-or-global precedence used to state the snapshot property. -/
def oor (a b : Option Value) : Option Value :=
  match a with
  | some v => some v
  | none => b

/-- The active section of the line processor. -/
inductive Section where
  | control
  | global
  | group
  | region
deriving DecidableEq, Repr

/-- `{"opcodes": {}, "regions": []}`. -/
structure Group where
  opcodes : Dict
  regions : List Dict
deriving DecidableEq, Repr

/-- The document-building part of the `SFZParser` object state (everything
except the processed-file set, which lives with the file recursion). -/
structure Core where
  control : Dict
  global : Dict
  groups : List Group
  defines : List (String × String)
  current_section : Option Section
  has_group : Bool
  has_region : Bool
deriving DecidableEq, Repr

/-- `SFZParser.__init__`. -/
def cinit : Core :=
  { control := [], global := [], groups := [], defines := []
    current_section := none, has_group := false, has_region := false }

/-- Apply `f` to the last element of a list (no-op on `[]`). -/
def modifyLast : List α → (α → α) → List α
  | [], _ => []
  | [a], f => [f a]
  | a :: b :: rest, f => a :: modifyLast (b :: rest) f

/-- Opcodes of the current (= last) group, `[]` when there is none. -/
def lastOpcodes (c : Core) : Dict :=
  match c.groups.getLast? with
  | some g => g.opcodes
  | none => []

/-- The dict `self.current_region` refers to: the last region of the last
group when `current_region` is not `None`. -/
def currentRegion (c : Core) : Option Dict :=
  if c.has_region then (c.groups.getLast?.map Group.regions).bind List.getLast?
  else none

/-- Python truthiness of a `Value` (`0`, `0.0` and `""` are falsy). -/
def truthy : Value → Bool
  | .int n => n ≠ 0
  | .float q => q.num ≠ 0
  | .str s => s ≠ ""

/-- `self.defines[key] = value`: insertion-ordered string-valued dict. -/
def dsetS (d : List (String × String)) (k v : String) : List (String × String) :=
  if d.any (fun e => e.1 == k) then
    d.map (fun e => if e.1 == k then (k, v) else e)
  else d ++ [(k, v)]

/-- Macro substitution applied to raw value text: every known define is
tried in registration order and each replaces all literal occurrences of
`$name` (a single sequential pass over the table). -/
def applyDefines (defines : List (String × String)) (s : String) : String :=
  defines.foldl (fun acc e => replaceAll acc ("$" ++ e.1) e.2) s

/-- Storing one resolved opcode according to the current section (the final
`if "=" in line` branch of `process_line`).  The stores into the current
group / region are guarded by Python truthiness of `current_group`
(a two-key dict, always truthy when present) and `current_region`
(an *empty* region dict is falsy, so nothing is stored). -/
def storeOpcode (c : Core) (k : String) (v : Value) : Core :=
  match c.current_section with
  | some .control => { c with control := dset c.control k v }
  | some .global => { c with global := dset c.global k v }
  | some .group =>
    if c.has_group then
      { c with groups := modifyLast c.groups (fun g => { g with opcodes := dset g.opcodes k v }) }
    else c
  | some .region =>
    match currentRegion c with
    | some r =>
      if r ≠ [] then
        let f := fun g => { g with regions := modifyLast g.regions (fun r => dset r k v) }
        { c with groups := modifyLast c.groups f }
      else c
    | none => c
  | none => c

/-- Resolve (macros + `parse_value`) and store a token list, left to right. -/
def applyOpcodes (c : Core) (ps : List (String × String)) : Core :=
  ps.foldl (fun c p => storeOpcode c p.1 (parse_value (applyDefines c.defines p.2))) c

/-- `self.current_region[key] = value` in the `<region>` branch: stored into
the just-created region (= last region of the last group) with no truthiness
guard. -/
def setLastRegion (c : Core) (k : String) (v : Value) : Core :=
  let f := fun g => { g with regions := modifyLast g.regions (fun r => dset r k v) }
  { c with groups := modifyLast c.groups f }

/-- Resolve and store the same-line opcodes of a `<region>` line. -/
def applyRegionOps (c : Core) (ps : List (String × String)) : Core :=
  ps.foldl (fun c p => setLastRegion c p.1 (parse_value (applyDefines c.defines p.2))) c

/-- `re.match(r'#define\s+\$(\w+)\s+(.+)', line)` for a newline-free `line`
already known to start with `#define`: whitespace, `$`, a nonempty word run
(the name), whitespace, and a nonempty remainder (the raw value).  When the
remainder after the maximal whitespace run is empty, the greedy `\s+` backs
off one character so `(.+)` captures a single whitespace character, which
requires the whitespace run to have length at least two. -/
def matchDefine (l : List Char) : Option (String × String) :=
  let r := l.drop 7
  match r with
  | c :: _ =>
    if isPyWs c then
      match r.dropWhile isPyWs with
      | '$' :: r2 =>
        let w := r2.takeWhile isPyWord
        let r3 := r2.dropWhile isPyWord
        if w ≠ [] then
          match r3 with
          | d :: _ =>
            if isPyWs d then
              let ws := r3.takeWhile isPyWs
              let rest := r3.drop ws.length
              if rest ≠ [] then some (⟨w⟩, ⟨rest⟩)
              else if 2 ≤ ws.length then some (⟨w⟩, ⟨ws.drop (ws.length - 1)⟩)
              else none
            else none
          | [] => none
        else none
      | _ => none
    else none
  | [] => none

/-- `re.search(r'"([^"]+)"', line)`: the first nonempty double-quoted run. -/
def findQuoted : List Char → Option (List Char)
  | [] => none
  | '"' :: rest =>
    let run := rest.takeWhile (fun c => ¬ c = '"')
    let after := rest.dropWhile (fun c => ¬ c = '"')
    if run ≠ [] ∧ after ≠ [] then some run else findQuoted rest
  | _ :: rest => findQuoted rest

/-- Inline-comment removal: `line.split("//")[0].strip()` when `"//"` occurs
in the line, otherwise the line unchanged. -/
def stripComment (l : List Char) : List Char :=
  if containsSub l ['/', '/'] then pyStripL (splitFirstPre l ['/', '/']) else l

/-- The body of `process_line` after the empty-line and full-line-comment
early returns and the inline-comment strip.  Returns the new core state and,
for an `#include` line with a quoted path, the include path after macro
substitution and backslash normalization (the caller resolves and recurses,
mirroring the call to `parse_file` inside `process_line`). -/
def lineStepBody (c : Core) (l : List Char) : Core × Option String :=
  if ['#', 'd', 'e', 'f', 'i', 'n', 'e'].isPrefixOf l then
    match matchDefine l with
    | some kv => ({ c with defines := dsetS c.defines kv.1 (pyStrip kv.2) }, none)
    | none => (c, none)
  else if ['#', 'i', 'n', 'c', 'l', 'u', 'd', 'e'].isPrefixOf l then
    match findQuoted l with
    | some p =>
      let p1 := applyDefines c.defines ⟨p⟩
      (c, some (replaceAll p1 "\\" "/"))
    | none => (c, none)
  else if ['<', 'c', 'o', 'n', 't', 'r', 'o', 'l', '>'].isPrefixOf l then
    ({ c with current_section := some .control }, none)
  else if ['<', 'g', 'l', 'o', 'b', 'a', 'l', '>'].isPrefixOf l then
    ({ c with current_section := some .global }, none)
  else if ['<', 'm', 'a', 's', 't', 'e', 'r', '>'].isPrefixOf l then
    let g2 := c.groups ++ [⟨[], []⟩]
    ({ c with current_section := some .group, groups := g2, has_group := true, has_region := false }, none)
  else if ['<', 'g', 'r', 'o', 'u', 'p', '>'].isPrefixOf l then
    let g2 := c.groups ++ [⟨[], []⟩]
    ({ c with current_section := some .group, groups := g2, has_group := true, has_region := false }, none)
  else if ['<', 'r', 'e', 'g', 'i', 'o', 'n', '>'].isPrefixOf l then
    let c1 := if c.has_group then c else { c with groups := c.groups ++ [⟨[], []⟩] }
    let snap := snapshotDict c1.global (lastOpcodes c1)
    let appendRegion := fun g => { g with regions := g.regions ++ [snap] }
    let g3 := modifyLast c1.groups appendRegion
    let c2 : Core :=
      { c1 with groups := g3, current_section := some .region, has_group := true, has_region := true }
    let rest := pyStripL (l.drop 8)
    if rest ≠ [] ∧ rest.contains '=' then (applyRegionOps c2 (extractOps rest), none)
    else (c2, none)
  else if l.contains '=' then
    (applyOpcodes c (extractOps l), none)
  else (c, none)

/-- `process_line` on a character list (the include recursion itself is
performed by the file-parsing layer on the returned request). -/
def lineStep (c : Core) (l : List Char) : Core × Option String :=
  if l.isEmpty then (c, none)
  else if ['/', '/'].isPrefixOf l then (c, none)
  else lineStepBody c (stripComment l)

/-- Process a list of raw lines exactly as `parse_file` feeds them to
`process_line` (each line stripped first), ignoring include requests; used to
state claims about documents that contain no `#include`. -/
def runLines (c : Core) (ls : List String) : Core :=
  ls.foldl (fun c l => (lineStep c (pyStripL l.toList)).1) c

/-! ### The normalizer (`SFZParser.normalize`)

`normalize` can raise: when a region's `sample` value is truthy and not a
string, `str(Path(default_path) / sample)` raises `TypeError` (a `Path` is
built from / joined with a non-string) if `default_path` is also truthy, and
otherwise `sample.replace` raises `AttributeError`.  The exceptions are
modelled with `Except`. -/

/-- The two exception kinds `normalize` can raise. -/
inductive PyErr where
  | typeError
  | attributeError
deriving DecidableEq, Repr

/-- Split a character list on `'/'`. -/
def splitSlashes : List Char → List (List Char)
  | [] => [[]]
  | '/' :: rest => [] :: splitSlashes rest
  | c :: rest =>
    match splitSlashes rest with
    | seg :: segs => (c :: seg) :: segs
    | [] => [[c]]

/-- Render a pure path from an absolute flag and its components, the way
`str(PurePosixPath(...))` does: components joined by `/`, a leading `/` when
absolute, `"."` for an empty relative path. -/
def renderPath (abs : Bool) (segs : List (List Char)) : List Char :=
  let body := (segs.intersperse ['/']).flatten
  if abs then '/' :: body
  else if segs.isEmpty then ['.']
  else body

/-- Models `str(PurePosixPath(d) / s)` for the common cases: empty and `"."`
components are dropped, an absolute `s` (leading `/`) discards `d`, `".."`
components are kept.  (POSIX double-leading-slash and Windows drive quirks
are not modelled; `d` is nonempty at every call site because it is checked
truthy first.) -/
def pathJoinL (d s : List Char) : List Char :=
  let clean := fun (l : List Char) =>
    (splitSlashes l).filter (fun seg => ¬ (seg = [] ∨ seg = ['.']))
  if s.head? = some '/' then renderPath true (clean s)
  else renderPath (d.head? = some '/') (clean d ++ clean s)

/-- `str(Path(default_path) / sample)` on strings. -/
def pathJoin (d s : String) : String :=
  ⟨pathJoinL d.toList s.toList⟩

/-- The sample-path resolution step of `normalize`:
`if sample and default_path: sample = str(Path(default_path)/sample).replace("\\","/")`,
`elif sample: sample = sample.replace("\\","/")`, else the raw (possibly
absent or falsy) value is kept. -/
def resolveSample (default_path : Value) (sample? : Option Value) : Except PyErr (Option Value) :=
  match sample? with
  | none => .ok none
  | some s =>
    if truthy s then
      if truthy default_path then
        match default_path, s with
        | .str d, .str ss => .ok (some (.str (replaceAll (pathJoin d ss) "\\" "/")))
        | _, _ => .error .typeError
      else
        match s with
        | .str ss => .ok (some (.str (replaceAll ss "\\" "/")))
        | _ => .error .attributeError
    else .ok (some s)

/-- The amplitude-envelope record of a normalized region. -/
structure AmpEnv where
  attack : Value
  decay : Value
  sustain : Value
  release : Value
deriving DecidableEq, Repr

/-- One normalized region descriptor (`norm` in `normalize`). -/
structure NormRegion where
  sample : Option Value
  key_lo : Value
  key_hi : Value
  vel_lo : Value
  vel_hi : Value
  root_key : Value
  tune : Value
  volume : Value
  loop_mode : Value
  amp : AmpEnv
deriving DecidableEq, Repr

/-- The defaulted fields of one region descriptor. -/
def normFields (r : Dict) (sample : Option Value) : NormRegion :=
  { sample := sample
    key_lo := (dget r "lokey").getD (.int 0)
    key_hi := (dget r "hikey").getD (.int 127)
    vel_lo := (dget r "lovel").getD (.int 0)
    vel_hi := (dget r "hivel").getD (.int 127)
    root_key := (dget r "pitch_keycenter").getD ((dget r "lokey").getD (.int 60))
    tune := (dget r "tune").getD (.int 0)
    volume := (dget r "volume").getD (.int 0)
    loop_mode := (dget r "loop_mode").getD (.str "one_shot")
    amp :=
      { attack := (dget r "ampeg_attack").getD (.float (mkRat 0 1))
        decay := (dget r "ampeg_decay").getD (.float (mkRat 0 1))
        sustain := (dget r "ampeg_sustain").getD (.float (mkRat 1 1))
        release := (dget r "ampeg_release").getD (.float (mkRat 0 1)) } }

/-- Normalization of one region dict. -/
def normalizeRegion (default_path : Value) (r : Dict) : Except PyErr NormRegion :=
  (resolveSample default_path (dget r "sample")).map (normFields r)

/-- The normalized output document. -/
structure NormDoc where
  control : Dict
  regions : List NormRegion
deriving DecidableEq, Repr

instance {ε α : Type} [DecidableEq ε] [DecidableEq α] : DecidableEq (Except ε α) :=
  fun x y =>
    match x, y with
    | .ok a, .ok b =>
      if h : a = b then isTrue (by rw [h]) else isFalse (fun he => by cases he; exact h rfl)
    | .error a, .error b =>
      if h : a = b then isTrue (by rw [h]) else isFalse (fun he => by cases he; exact h rfl)
    | .ok _, .error _ => isFalse (fun he => by cases he)
    | .error _, .ok _ => isFalse (fun he => by cases he)

/-- `SFZParser.normalize`: iterate groups in creation order and regions
within each group in creation order; the first exception aborts. -/
def normalize (c : Core) : Except PyErr NormDoc := do
  let dp := (dget c.control "default_path").getD (.str "")
  let rs ← ((c.groups.map Group.regions).flatten).mapM (normalizeRegion dp)
  .ok ⟨c.control, rs⟩

/-! ### Recursive file parsing (`SFZParser.parse_file`)

The file system is abstracted: `files` maps canonical absolute paths to line
lists, `canon` models `Path(p).resolve()`, `join base rel` models
`(base_path / rel).resolve()` and `parent` models `path.parent`.  The
recursion terminates because every recursive `parse_file` entry that actually
reads a file first inserts a path that exists and was unprocessed into the
processed set, so the number of existing-but-unprocessed files strictly
decreases; this count is the well-founded termination measure, and each call
returns a proof (`PInv`) that the processed set only grows, which the
termination argument of the *caller* needs. -/

/-- Abstract file system and path algebra. -/
structure FSys where
  files : List (String × List String)
  canon : String → String
  join : String → String → String
  parent : String → String

/-- Content lookup at a canonical path; `none` models a missing file. -/
def FSys.lookup (fs : FSys) (p : String) : Option (List String) :=
  (fs.files.find? (fun e => e.1 == p)).map (·.2)

/-- State of a whole parse: document core, processed-file set, the order in
which files were actually opened and read (`trace`), and the error messages
printed so far. -/
structure PState where
  core : Core
  processed : List String
  trace : List String
  errlog : List String
deriving DecidableEq, Repr

/-- `SFZParser.__init__` state. -/
def pinit : PState :=
  { core := cinit, processed := [], trace := [], errlog := [] }

/-- Number of files that exist but have not been processed yet. -/
def unproc (fs : FSys) (pr : List String) : Nat :=
  ((fs.files.map Prod.fst).filter (fun q => decide (q ∉ pr))).length

/-- Invariant carried by every recursive call: the processed set only grows,
and a duplicate-free trace covered by the processed set stays that way. -/
def PInv (st r : PState) : Prop :=
  (∀ x, x ∈ st.processed → x ∈ r.processed) ∧
  ((st.trace.Nodup ∧ ∀ x ∈ st.trace, x ∈ st.processed) →
    (r.trace.Nodup ∧ ∀ x ∈ r.trace, x ∈ r.processed))

theorem PInv.refl (st : PState) : PInv st st :=
  ⟨fun _ h => h, fun h => h⟩

theorem PInv.trans {a b c : PState} (h1 : PInv a b) (h2 : PInv b c) : PInv a c :=
  ⟨fun x hx => h2.1 x (h1.1 x hx), fun h => h2.2 (h1.2 h)⟩

theorem length_filter_le_of_imp (l : List α) (p q : α → Bool)
    (h : ∀ a, q a = true → p a = true) :
    (l.filter q).length ≤ (l.filter p).length := by
  induction l with
  | nil => simp
  | cons b t ih =>
    by_cases hq : q b = true
    · simp only [List.filter_cons, hq, h b hq, if_true, List.length_cons]
      omega
    · simp only [Bool.not_eq_true] at hq
      by_cases hp : p b = true
      · simp only [List.filter_cons, hq, hp, if_true, Bool.false_eq_true, if_false,
          List.length_cons]
        omega
      · simp only [Bool.not_eq_true] at hp
        simp only [List.filter_cons, hq, hp, Bool.false_eq_true, if_false]
        exact ih

theorem length_filter_lt (l : List α) (p q : α → Bool)
    (h : ∀ a, q a = true → p a = true) (a : α) (ha : a ∈ l)
    (hpa : p a = true) (hqa : q a = false) :
    (l.filter q).length < (l.filter p).length := by
  induction l with
  | nil => cases ha
  | cons b t ih =>
    rcases List.mem_cons.mp ha with hb | hb
    · subst hb
      have h1 := length_filter_le_of_imp t p q h
      simp only [List.filter_cons, hqa, hpa, if_true, Bool.false_eq_true, if_false,
        List.length_cons]
      omega
    · have h2 : (t.filter q).length < (t.filter p).length := ih hb
      by_cases hq : q b = true
      · simp only [List.filter_cons, hq, h b hq, if_true, List.length_cons]
        omega
      · simp only [Bool.not_eq_true] at hq
        by_cases hp : p b = true
        · simp only [List.filter_cons, hq, hp, if_true, Bool.false_eq_true, if_false,
            List.length_cons]
          omega
        · simp only [Bool.not_eq_true] at hp
          simp only [List.filter_cons, hq, hp, Bool.false_eq_true, if_false]
          exact h2

theorem unproc_insert_lt (fs : FSys) (pr : List String) (p : String)
    (hmem : p ∈ fs.files.map Prod.fst) (hnp : p ∉ pr) :
    unproc fs (p :: pr) < unproc fs pr := by
  refine length_filter_lt _ _ _ ?_ p hmem ?_ ?_
  · intro a haq
    simp only [decide_eq_true_eq] at haq ⊢
    intro hin
    exact haq (List.mem_cons_of_mem _ hin)
  · simpa using hnp
  · simp

theorem unproc_mono (fs : FSys) {pr pr' : List String}
    (h : ∀ x, x ∈ pr → x ∈ pr') : unproc fs pr' ≤ unproc fs pr := by
  apply length_filter_le_of_imp
  intro a haq
  simp only [decide_eq_true_eq] at haq ⊢
  intro hin
  exact haq (h a hin)

theorem mem_keys_of_lookup {fs : FSys} {p : String} {ls : List String}
    (h : fs.lookup p = some ls) : p ∈ fs.files.map Prod.fst := by
  unfold FSys.lookup at h
  cases hf : fs.files.find? (fun e => e.1 == p) with
  | none => rw [hf] at h; cases h
  | some e =>
    have hmem := List.mem_of_find?_eq_some hf
    have hpred := List.find?_some hf
    have : e.1 = p := by simpa using hpred
    subst this
    exact List.mem_map_of_mem Prod.fst hmem

theorem lexNatHelper {a b c d : Nat} (h : a ≤ c) (h2 : b < d) :
    Prod.Lex (· < ·) (· < ·) (a, b) (c, d) := by
  rcases Nat.lt_or_ge a c with h1 | h1
  · exact Prod.Lex.left _ _ h1
  · have : a = c := Nat.le_antisymm h h1
    subst this
    exact Prod.Lex.right _ h2

mutual

/-- `SFZParser.parse_file`: canonicalize, skip already-processed paths,
report missing files, otherwise mark the path processed and feed every
(stripped) line to the line processor with the file's directory as base. -/
def parseFileAux (fs : FSys) (path : String) (st : PState) : {r : PState // PInv st r} :=
  let fp := fs.canon path
  if hin : fp ∈ st.processed then ⟨st, PInv.refl st⟩
  else
    match hlk : fs.lookup fp with
    | none =>
      ⟨{ st with errlog := st.errlog ++ ["[ERROR] File not found: " ++ fp] },
       ⟨fun _ h => h, fun h => h⟩⟩
    | some lines =>
      let st1 : PState := { st with processed := fp :: st.processed, trace := st.trace ++ [fp] }
      let r := processLinesAux fs (fs.parent fp) lines st1
      ⟨r.1, by
        refine PInv.trans (b := st1) ⟨fun x hx => List.mem_cons_of_mem _ hx, ?_⟩ r.2
        rintro ⟨hnd, hsub⟩
        have hfp : fp ∉ st.trace := fun hmem => hin (hsub fp hmem)
        constructor
        · simp only [PState.trace]
          rw [List.nodup_append]
          exact ⟨hnd, List.nodup_singleton fp, by
            intro x hx hx1
            rcases List.mem_singleton.mp hx1 with rfl
            exact hfp hx⟩
        · intro x hx
          rcases List.mem_append.mp hx with hx | hx
          · exact List.mem_cons_of_mem _ (hsub x hx)
          · rcases List.mem_singleton.mp hx with rfl
            exact List.mem_cons_self _ _⟩
  termination_by (unproc fs st.processed, 0)
  decreasing_by
    apply Prod.Lex.left
    exact unproc_insert_lt fs st.processed fp (mem_keys_of_lookup hlk) hin

/-- The `for raw_line in f: self.process_line(raw_line.strip(), filepath.parent)`
loop, performing the recursive `parse_file` call of the `#include` branch. -/
def processLinesAux (fs : FSys) (base : String) (lines : List String) (st : PState) :
    {r : PState // PInv st r} :=
  match lines with
  | [] => ⟨st, PInv.refl st⟩
  | l :: rest =>
    match lineStep st.core (pyStripL l.toList) with
    | (c2, none) =>
      let r := processLinesAux fs base rest { st with core := c2 }
      ⟨r.1, r.2⟩
    | (c2, some inc) =>
      let st1 : PState := { st with core := c2 }
      let incFile := fs.join base inc
      if (fs.lookup incFile).isSome then
        let r1 := parseFileAux fs incFile st1
        let r2 := processLinesAux fs base rest r1.1
        ⟨r2.1, PInv.trans (a := st) r1.2 r2.2⟩
      else
        let st2 : PState :=
          { st1 with errlog := st1.errlog ++ ["[ERROR] Include file not found: " ++ incFile] }
        let r := processLinesAux fs base rest st2
        ⟨r.1, r.2⟩
  termination_by (unproc fs st.processed, lines.length + 1)
  decreasing_by
    · exact lexNatHelper (Nat.le_refl _) (by simp only [List.length_cons]; omega)
    · exact lexNatHelper (Nat.le_refl _) (by simp only [List.length_cons]; omega)
    · exact lexNatHelper (unproc_mono fs r1.2.1) (by simp only [List.length_cons]; omega)
    · exact lexNatHelper (Nat.le_refl _) (by simp only [List.length_cons]; omega)

end

/-- `SFZParser.parse_file`, state-to-state. -/
def parse_file (fs : FSys) (path : String) (st : PState) : PState :=
  (parseFileAux fs path st).1

/-! ### Spec-side tokenizer descriptions (for comparison with the source) -/

/-- Key as described by the claim, verbatim: "the run of non-whitespace
characters immediately preceding that `=`". -/
def claimKey (line : List Char) (eq : Nat) : List Char :=
  ((line.take eq).reverse.takeWhile (fun c => ¬ isPyWs c)).reverse

/-- Tokenizer loop as described by the claim: keys by backward whitespace
search, values from just after `=` to the start of the next
whitespace-word-equals pattern (or end of line), no stripping. -/
def claimExtractGo (line : List Char) : Nat → Nat → List (String × String)
  | 0, _ => []
  | fuel + 1, i =>
    match findEqGo (line.drop i) i with
    | none => []
    | some eq =>
      match searchWWE (line.drop (eq + 1)) with
      | some m =>
        (⟨claimKey line eq⟩, ⟨sliceL line (eq + 1) (eq + 1 + m)⟩)
          :: claimExtractGo line fuel (eq + 1 + m)
      | none => [(⟨claimKey line eq⟩, ⟨sliceL line (eq + 1) line.length⟩)]

/-- The claim's tokenizer description, as stated. -/
def claimExtract (l : List Char) : List (String × String) :=
  claimExtractGo l (l.length + 1) 0

/-- Amended key description: backward search for the nearest preceding SPACE
character (not arbitrary whitespace), and the resulting slice is then
whitespace-stripped. -/
def specKeyAmended (line : List Char) (eq : Nat) : List Char :=
  pyStripL (((line.take eq).reverse.takeWhile (fun c => ¬ c = ' ')).reverse)

/-- Amended tokenizer description: keys per `specKeyAmended`, values from
just after `=` to the start of the next whitespace-word-equals pattern (or
end of line) and then whitespace-stripped. -/
def specExtractGo (line : List Char) : Nat → Nat → List (String × String)
  | 0, _ => []
  | fuel + 1, i =>
    match findEqGo (line.drop i) i with
    | none => []
    | some eq =>
      match searchWWE (line.drop (eq + 1)) with
      | some m =>
        (⟨specKeyAmended line eq⟩, ⟨pyStripL (sliceL line (eq + 1) (eq + 1 + m))⟩)
          :: specExtractGo line fuel (eq + 1 + m)
      | none => [(⟨specKeyAmended line eq⟩, ⟨pyStripL (sliceL line (eq + 1) line.length)⟩)]

/-- The amended tokenizer description. -/
def specExtract (l : List Char) : List (String × String) :=
  specExtractGo l (l.length + 1) 0

/-! ### Dictionary lemmas for the snapshot semantics -/

theorem dget_nil (k : String) : dget [] k = none := rfl

theorem dget_cons (x : String × Value) (t : Dict) (k : String) :
    dget (x :: t) k = if x.1 = k then some x.2 else dget t k := by
  by_cases h : x.1 = k
  · simp [dget, List.find?_cons, h]
  · simp [dget, List.find?_cons, h]

theorem dget_map_ne (d : Dict) (k : String) (v : Value) (k' : String) (hne : k' ≠ k) :
    dget (d.map (fun e => if e.1 == k then (k, v) else e)) k' = dget d k' := by
  simp only [beq_iff_eq]
  induction d with
  | nil => rfl
  | cons e t ih =>
    by_cases he : e.1 = k
    · have hc1 : ¬ (k = k') := fun h => hne h.symm
      have hc2 : ¬ (e.1 = k') := by rw [he]; exact hc1
      simp [dget_cons, he, hc1, hc2, ih]
    · by_cases h2 : e.1 = k'
      · simp [dget_cons, he, h2, hne]
      · simp [dget_cons, he, h2, ih]

theorem dget_map_self (d : Dict) (k : String) (v : Value)
    (hany : d.any (fun e => e.1 == k) = true) :
    dget (d.map (fun e => if e.1 == k then (k, v) else e)) k = some v := by
  induction d with
  | nil => cases hany
  | cons e t ih =>
    rw [List.any_cons] at hany
    by_cases he : e.1 = k
    · simp [dget_cons, he]
    · have h1 : (e.1 == k) = false := by simpa using he
      rw [h1, Bool.false_or] at hany
      simpa [dget_cons, he] using ih hany

theorem dget_append_single (d : Dict) (e : String × Value) (k : String) :
    dget (d ++ [e]) k = oor (dget d k) (dget [e] k) := by
  induction d with
  | nil => rfl
  | cons x t ih =>
    rw [List.cons_append, dget_cons, dget_cons]
    by_cases h : x.1 = k
    · simp [h, oor]
    · simp only [h, if_false]
      exact ih

theorem dget_dset (d : Dict) (k : String) (v : Value) (k' : String) :
    dget (dset d k v) k' = if k' = k then some v else dget d k' := by
  unfold dset
  by_cases hany : d.any (fun e => e.1 == k) = true
  · simp only [hany, if_true]
    by_cases hk : k' = k
    · subst hk
      rw [dget_map_self d k' v hany, if_pos rfl]
    · rw [dget_map_ne d k v k' hk, if_neg hk]
  · simp only [Bool.not_eq_true] at hany
    simp only [hany, Bool.false_eq_true, if_false]
    rw [dget_append_single]
    by_cases hk : k' = k
    · subst hk
      have hnone : dget d k' = none := by
        induction d with
        | nil => rfl
        | cons e t ih =>
          simp only [List.any_cons, Bool.or_eq_false_iff] at hany
          rw [dget_cons, if_neg (by simpa using hany.1)]
          exact ih hany.2
      rw [hnone]
      simp [oor, dget_cons]
    · rw [if_neg hk, dget_cons, if_neg (fun h => hk h.symm)]
      simp [oor, dget_nil]
      cases dget d k' <;> simp [oor]

theorem dget_dupdate_not_mem (d m : Dict) (k : String) (h : k ∉ m.map Prod.fst) :
    dget (dupdate d m) k = dget d k := by
  induction m generalizing d with
  | nil => rfl
  | cons e t ih =>
    simp only [List.map_cons, List.mem_cons, not_or] at h
    show dget (dupdate (dset d e.1 e.2) t) k = dget d k
    rw [ih (dset d e.1 e.2) h.2, dget_dset, if_neg h.1]

theorem dget_dupdate (d m : Dict) (k : String) (hm : (m.map Prod.fst).Nodup) :
    dget (dupdate d m) k = oor (dget m k) (dget d k) := by
  induction m generalizing d with
  | nil => simp [dupdate, oor, dget_nil]
  | cons e t ih =>
    simp only [List.map_cons, List.nodup_cons] at hm
    show dget (dupdate (dset d e.1 e.2) t) k = _
    by_cases hk : k = e.1
    · subst hk
      rw [dget_dupdate_not_mem _ _ _ hm.1, dget_dset, if_pos rfl, dget_cons, if_pos rfl]
      simp [oor]
    · rw [ih _ hm.2, dget_dset, if_neg hk, dget_cons, if_neg (fun h => hk h.symm)]

/-- The snapshot mapping is exactly "group over global": a key present in the
group's opcodes wins, otherwise the global value is used. -/
theorem dget_snapshotDict (g go : Dict) (k : String)
    (hg : (g.map Prod.fst).Nodup) (hgo : (go.map Prod.fst).Nodup) :
    dget (snapshotDict g go) k = oor (dget go k) (dget g k) := by
  unfold snapshotDict
  rw [dget_dupdate _ _ _ hgo, dget_dupdate _ _ _ hg, dget_nil]
  cases dget go k <;> cases dget g k <;> simp [oor]

/-! ### Tokenizer lemmas -/

theorem findEqGo_none (l : List Char) (i : Nat) (h : '=' ∉ l) : findEqGo l i = none := by
  induction l generalizing i with
  | nil => rfl
  | cons c t ih =>
    simp only [List.mem_cons, not_or] at h
    have hcc : ¬ (c = '=') := fun hc => h.1 hc.symm
    simp only [findEqGo, hcc, if_false]
    exact ih (i + 1) h.2

theorem rfindSpaceGo_append (p : List Char) (c : Char) (i : Nat) (acc : Option Nat) :
    rfindSpaceGo (p ++ [c]) i acc =
      if c = ' ' then some (i + p.length) else rfindSpaceGo p i acc := by
  induction p generalizing i acc with
  | nil => simp [rfindSpaceGo]
  | cons d t ih =>
    show rfindSpaceGo (t ++ [c]) (i + 1) (if d = ' ' then some i else acc) =
      if c = ' ' then some (i + (d :: t).length)
      else rfindSpaceGo t (i + 1) (if d = ' ' then some i else acc)
    rw [ih]
    by_cases hc : c = ' '
    · simp only [hc, if_true, List.length_cons]
      congr 1
      omega
    · simp only [hc, if_false]

theorem rfindSpaceGo_bound (p : List Char) (i : Nat) (acc : Option Nat) (k : Nat)
    (h : rfindSpaceGo p i acc = some k) :
    acc = some k ∨ (i ≤ k ∧ k < i + p.length) := by
  induction p generalizing i acc with
  | nil => exact .inl h
  | cons c t ih =>
    simp only [rfindSpaceGo] at h
    rcases ih _ _ h with h1 | h1
    · by_cases hc : c = ' '
      · rw [if_pos hc] at h1
        rcases Option.some.inj h1 with rfl
        right
        simp only [List.length_cons]
        omega
      · rw [if_neg hc] at h1
        exact .inl h1
    · right
      simp only [List.length_cons]
      omega

theorem drop_keyStartAux (p : List Char) :
    p.drop (match rfindSpaceGo p 0 none with | some k => k + 1 | none => 0)
      = (p.reverse.takeWhile (fun c => ¬ c = ' ')).reverse := by
  induction p using List.reverseRecOn with
  | nil => simp
  | append_singleton q c ih =>
    rw [rfindSpaceGo_append]
    by_cases hc : c = ' '
    · subst hc
      simp only [if_pos rfl, Nat.zero_add]
      rw [List.drop_eq_nil_of_le (by simp)]
      simp [List.takeWhile_cons]
    · rw [if_neg hc]
      have hpc : decide (¬ c = ' ') = true := by simpa using hc
      cases hr : rfindSpaceGo q 0 none with
      | none =>
        rw [hr] at ih
        simp only [List.drop_zero] at ih ⊢
        rw [List.reverse_append, List.reverse_singleton, List.singleton_append,
          List.takeWhile_cons_of_pos (p := fun x => decide (¬ x = ' ')) hpc,
          List.reverse_cons, ← ih]
      | some k =>
        rw [hr] at ih
        have ih2 : q.drop (k + 1) = (q.reverse.takeWhile (fun c => ¬ c = ' ')).reverse := by
          simpa using ih
        rcases rfindSpaceGo_bound q 0 none k hr with h | h
        · cases h
        · have hk : k + 1 ≤ q.length := by omega
          rw [List.drop_append_of_le_length hk]
          rw [List.reverse_append, List.reverse_singleton, List.singleton_append,
            List.takeWhile_cons_of_pos (p := fun x => decide (¬ x = ' ')) hpc,
            List.reverse_cons, ← ih2]

theorem specKey_eq_code (line : List Char) (eq : Nat) :
    pyStripL (sliceL line (keyStartOf line eq) eq) = specKeyAmended line eq := by
  show pyStripL ((line.take eq).drop (keyStartOf line eq))
      = pyStripL (((line.take eq).reverse.takeWhile (fun c => ¬ c = ' ')).reverse)
  exact congrArg pyStripL (drop_keyStartAux (line.take eq))

/-- The source tokenizer loop computes exactly the amended spec description. -/
theorem extractGo_eq_spec (line : List Char) (fuel i : Nat) :
    extractGo line fuel i = specExtractGo line fuel i := by
  induction fuel generalizing i with
  | zero => rfl
  | succ n ih =>
    simp only [extractGo, specExtractGo]
    cases hf : findEqGo (line.drop i) i with
    | none => rfl
    | some eq =>
      cases hs : searchWWE (line.drop (eq + 1)) with
      | none => simp only [hs, specKey_eq_code]
      | some m => simp only [hs, specKey_eq_code, ih]

/-! ### Frame lemmas for the snapshot semantics -/

theorem modifyLast_map (l : List α) (f : α → α) (g : α → β) (h : ∀ a, g (f a) = g a) :
    (modifyLast l f).map g = l.map g := by
  induction l with
  | nil => rfl
  | cons a t ih =>
    cases t with
    | nil => simp [modifyLast, h]
    | cons b t2 => simpa [modifyLast] using ih

theorem modifyLast_append_singleton (gs : List α) (g : α) (f : α → α) :
    modifyLast (gs ++ [g]) f = gs ++ [f g] := by
  induction gs with
  | nil => rfl
  | cons a t ih =>
    cases ht : t ++ [g] with
    | nil => exact absurd ht (by simp)
    | cons b r =>
      simp only [List.cons_append, ht, modifyLast]
      rw [← ht, ih]

theorem storeOpcode_frame (c : Core) (k : String) (v : Value)
    (h : c.current_section ≠ some Section.region) :
    (storeOpcode c k v).groups.map Group.regions = c.groups.map Group.regions
    ∧ (storeOpcode c k v).current_section = c.current_section := by
  cases hs : c.current_section with
  | none => simp [storeOpcode, hs]
  | some s =>
    cases s with
    | control => simp [storeOpcode, hs]
    | global => simp [storeOpcode, hs]
    | group =>
      by_cases hg : c.has_group
      · simp only [storeOpcode, hs, hg, if_true]
        exact ⟨modifyLast_map _ _ _ (fun a => rfl), trivial⟩
      · simp [storeOpcode, hs, hg]
    | region => exact absurd hs h

theorem applyOpcodes_frame (ps : List (String × String)) (c : Core)
    (h : c.current_section ≠ some Section.region) :
    (applyOpcodes c ps).groups.map Group.regions = c.groups.map Group.regions
    ∧ (applyOpcodes c ps).current_section = c.current_section := by
  induction ps generalizing c with
  | nil => exact ⟨rfl, rfl⟩
  | cons p t ih =>
    have h1 := storeOpcode_frame c p.1 (parse_value (applyDefines c.defines p.2)) h
    have h2 := ih (storeOpcode c p.1 (parse_value (applyDefines c.defines p.2)))
      (by rw [h1.2]; exact h)
    exact ⟨h2.1.trans h1.1, h2.2.trans h1.2⟩

/-! ### Claim theorems -/

/-- Claim C1: snapshot-at-creation inheritance.  (1) The snapshot overlay
looks up as the Global Scope overridden by the Group's opcodes (group wins);
(2) processing a `<region>` line appends to the current group a region whose
mapping is exactly that snapshot of the current global scope and group
opcodes; (3) any line processed while the current section is not the region
section — in particular every attribute assignment stored into the Global
Scope (global section), the Control Scope, or the owning Group's opcode
mapping (group section), and any `<control>`/`<global>` switch or directive —
leaves the regions of every existing group unchanged; (4) the spec's
worked example: a region created under global `volume=-3` and group
`loop_mode=loop` keeps `volume = -3` even after a later global `volume=-6`,
which does land in the Global Scope. -/
theorem snapshot_inheritance_c1 :
    (∀ (g go : Dict) (k : String), (g.map Prod.fst).Nodup → (go.map Prod.fst).Nodup →
      dget (snapshotDict g go) k = oor (dget go k) (dget g k))
    ∧ (∀ (c : Core) (gs : List Group) (g : Group), c.has_group = true →
        c.groups = gs ++ [g] →
        (lineStep c ['<', 'r', 'e', 'g', 'i', 'o', 'n', '>']).1.groups =
          gs ++ [{ g with regions := g.regions ++ [snapshotDict c.global g.opcodes] }])
    ∧ (∀ (c : Core) (l : List Char), c.current_section ≠ some Section.region →
        ['<', 'r', 'e', 'g', 'i', 'o', 'n', '>'].isPrefixOf (stripComment l) = false →
        ['<', 'g', 'r', 'o', 'u', 'p', '>'].isPrefixOf (stripComment l) = false →
        ['<', 'm', 'a', 's', 't', 'e', 'r', '>'].isPrefixOf (stripComment l) = false →
        (lineStep c l).1.groups.map Group.regions = c.groups.map Group.regions)
    ∧ ((runLines cinit ["<global>", "volume=-3", "<group>", "loop_mode=loop", "<region>",
          "<global>", "volume=-6"]).groups =
          [⟨[("loop_mode", .str "loop")],
            [[("volume", .int (-3)), ("loop_mode", .str "loop")]]⟩]
        ∧ dget (runLines cinit ["<global>", "volume=-3", "<group>", "loop_mode=loop",
            "<region>", "<global>", "volume=-6"]).global "volume" = some (.int (-6))) := by
  refine ⟨dget_snapshotDict, ?_, ?_, by decide, by decide⟩
  · intro c gs g hg hgs
    simp [lineStep, lineStepBody, stripComment, containsSub, List.isPrefixOf, hg, hgs,
      lastOpcodes, modifyLast_append_singleton, List.getLast?_concat, pyStripL]
  · intro c l hsec hr hgrp hm
    unfold lineStep
    split
    · rfl
    · split
      · rfl
      · unfold lineStepBody
        split
        · split <;> rfl
        · split
          · split <;> rfl
          · split
            · rfl
            · split
              · rfl
              · split
                · next h => exact absurd h (by simp [hm])
                · split
                  · next h => exact absurd h (by simp [hgrp])
                  · split
                    · next h => exact absurd h (by simp [hr])
                    · split
                      · exact (applyOpcodes_frame _ c hsec).1
                      · rfl

theorem snapshot_inheritance_c1_witness :
    (dget (snapshotDict [("volume", .int (-3))] [("loop_mode", .str "loop")]) "volume"
      = oor (dget [("loop_mode", .str "loop")] "volume") (dget [("volume", .int (-3))] "volume"))
    ∧ (lineStep { cinit with has_group := true, groups := [⟨[], []⟩] }
        ['<', 'r', 'e', 'g', 'i', 'o', 'n', '>']).1.groups =
        [] ++ [{ (⟨[], []⟩ : Group) with regions :=
          [] ++ [snapshotDict { cinit with has_group := true, groups := [⟨[], []⟩] }.global
            (⟨[], []⟩ : Group).opcodes] }]
    ∧ (lineStep { cinit with current_section := some Section.global }
        ['v', 'o', 'l', 'u', 'm', 'e', '=', '5']).1.groups.map Group.regions =
        ({ cinit with current_section := some Section.global } : Core).groups.map Group.regions :=
  ⟨snapshot_inheritance_c1.1 _ _ _ (by decide) (by decide),
   snapshot_inheritance_c1.2.1 _ [] ⟨[], []⟩ (by decide) (by decide),
   snapshot_inheritance_c1.2.2.1 _ _ (by decide) (by decide) (by decide) (by decide)⟩

/-- Claim C2: inclusion terminates and is applied at most once per file.
Termination for every include graph is witnessed by `parse_file` itself: it
is a total function defined by well-founded recursion on the number of
existing-but-unprocessed files, with no fuel.  This theorem states the rest:
(a) entering `parse_file` on an already-processed canonical path is a
complete no-op (the state — document, trace, and error log — is returned
unchanged, so it is not an error); (b) the trace of files actually opened
and read never acquires a duplicate, so each file's content is read and
applied at most once per document build. -/
theorem include_once_c2 (fs : FSys) (p : String) (st : PState) :
    (fs.canon p ∈ st.processed → parse_file fs p st = st)
    ∧ ((st.trace.Nodup ∧ ∀ x ∈ st.trace, x ∈ st.processed) →
        ((parse_file fs p st).trace.Nodup
          ∧ ∀ x ∈ (parse_file fs p st).trace, x ∈ (parse_file fs p st).processed)) := by
  constructor
  · intro h
    unfold parse_file parseFileAux
    simp [h]
  · intro h
    exact (parseFileAux fs p st).2.2 h

/-- A two-file cyclic include graph `A → B → A`, with trivial path algebra. -/
def fsCyc : FSys :=
  ⟨[("A", ["#include \"B\""]), ("B", ["#include \"A\""])],
   fun p => p, fun _ r => r, fun _ => "."⟩

theorem include_once_c2_witness :
    (parse_file fsCyc "A" { pinit with processed := ["A"] } = { pinit with processed := ["A"] })
    ∧ ((parse_file fsCyc "A" pinit).trace.Nodup
        ∧ ∀ x ∈ (parse_file fsCyc "A" pinit).trace, x ∈ (parse_file fsCyc "A" pinit).processed) :=
  ⟨(include_once_c2 fsCyc "A" { pinit with processed := ["A"] }).1 (by decide),
   (include_once_c2 fsCyc "A" pinit).2 ⟨List.nodup_nil, by intro x hx; cases hx⟩⟩

/-- Claim C3 counterexample: on the line `a<TAB>k= v` the code's backward
search for a SPACE (`rfind(" ", ...)`) does not stop at the tab, so the key
is `a<TAB>k`, not the run of non-whitespace characters `k` the claim
describes; the code also strips the extracted value, so the leading space of
` v` is dropped.  The claim's described tokenizer and the code disagree. -/
theorem tokenizer_claim_c3_counterexample :
    claimExtract "a\tk= v".toList = [("k", " v")]
    ∧ extract_opcodes "a\tk= v" = [("a\tk", "v")]
    ∧ claimExtract "a\tk= v".toList ≠ extract_opcodes "a\tk= v" :=
  ⟨by decide, by decide, by decide⟩

/-- Claim C3, amended: keys are found by searching backward for the nearest
preceding SPACE character (not arbitrary whitespace) or start-of-line, and
both the key slice and the value slice are whitespace-stripped; with that
amendment the tokenizer agrees with the description on every line, and the
spec's worked example holds. -/
theorem tokenizer_spaces_c3 :
    (∀ l : List Char, extractOps l = specExtract l)
    ∧ extract_opcodes "sample=My Piano.wav lovel=0" =
        [("sample", "My Piano.wav"), ("lovel", "0")] :=
  ⟨fun l => extractGo_eq_spec l (l.length + 1) 0, by decide⟩

/-- The empty file system with trivial path algebra. -/
def fsEmpty : FSys :=
  ⟨[], fun p => p, fun _ r => r, fun _ => "."⟩

/-- Claim C4 counterexample: a missing top-level input file is NOT a hard
failure.  `parse_file` prints an error (modelled by the error log), returns
normally with the document untouched, and normalizing the resulting state
silently yields the empty document (empty control scope, no regions) — the
same local absorption used for missing includes. -/
theorem missing_top_level_c4_counterexample :
    parse_file fsEmpty "missing.sfz" pinit =
      { pinit with errlog := ["[ERROR] File not found: missing.sfz"] }
    ∧ normalize (parse_file fsEmpty "missing.sfz" pinit).core = .ok ⟨[], []⟩ := by
  have h : parse_file fsEmpty "missing.sfz" pinit =
      { pinit with errlog := ["[ERROR] File not found: missing.sfz"] } := by
    unfold parse_file parseFileAux
    simp [fsEmpty, pinit, FSys.lookup]
  exact ⟨h, by rw [h]; decide⟩

/-- Claim C4, amended: when the requested file's canonical path does not
exist (and was not already processed), `parse_file` reports the failure on
the error log and returns with the parse state otherwise unchanged — the
failure is absorbed exactly like a missing include, and the caller then
produces an empty document rather than receiving a hard failure. -/
theorem missing_top_level_c4 (fs : FSys) (p : String) (st : PState)
    (hn : fs.canon p ∉ st.processed) (hlk : fs.lookup (fs.canon p) = none) :
    parse_file fs p st =
      { st with errlog := st.errlog ++ ["[ERROR] File not found: " ++ fs.canon p] } := by
  unfold parse_file parseFileAux
  simp only [hn, dite_false, dif_neg, not_false_iff]
  split
  · rfl
  · next heq => rw [hlk] at heq; cases heq

theorem missing_top_level_c4_witness :
    parse_file fsEmpty "nope.sfz" pinit =
      { pinit with errlog := pinit.errlog ++ ["[ERROR] File not found: " ++ fsEmpty.canon "nope.sfz"] } :=
  missing_top_level_c4 fsEmpty "nope.sfz" pinit (by decide) (by decide)

/-- Claim C5: value resolution.  (1) Macro substitution over a table split
anywhere is the sequential composition of the two halves, i.e. macros are
applied one after another in registration order across the whole table in a
single pass; (2)–(5) the concrete behaviors the claim names: the
`#define $ROOT`/`sample=$ROOT/kick.wav` example end to end through the line
processor, quote stripping with numeric parsing, float detection by the
presence of a dot, and the trimmed-string fallback on numeric-parse
failure. -/
theorem value_resolution_c5 :
    (∀ (d1 d2 : List (String × String)) (s : String),
      applyDefines (d1 ++ d2) s = applyDefines d2 (applyDefines d1 s))
    ∧ (runLines cinit ["#define $ROOT C:/samples", "<global>", "sample=$ROOT/kick.wav"]).global
        = [("sample", .str "C:/samples/kick.wav")]
    ∧ applyDefines [("ROOT", "C:/samples")] "$ROOT/kick.wav" = "C:/samples/kick.wav"
    ∧ parse_value "\"42\"" = .int 42
    ∧ parse_value "3.5" = .float (mkRat 7 2)
    ∧ parse_value " -7 " = .int (-7)
    ∧ parse_value "C:/samples/kick.wav" = .str "C:/samples/kick.wav"
    ∧ parse_value " abc " = .str "abc" :=
  ⟨fun d1 d2 s => by simp [applyDefines, List.foldl_append],
   by decide, by decide, by decide, by decide, by decide, by decide, by decide⟩

/-- Claim C6: root-key fallback chain `pitch_keycenter` > `lokey` > `60` for
every region descriptor the normalizer emits. -/
theorem root_key_fallback_c6 (dp : Value) (r : Dict) (d : NormRegion)
    (h : normalizeRegion dp r = .ok d) :
    d.root_key =
      match dget r "pitch_keycenter" with
      | some v => v
      | none =>
        match dget r "lokey" with
        | some v => v
        | none => .int 60 := by
  unfold normalizeRegion at h
  cases hr : resolveSample dp (dget r "sample") with
  | error e => rw [hr] at h; cases h
  | ok s =>
    rw [hr] at h
    simp only [Except.map] at h
    cases h
    simp only [normFields]
    cases dget r "pitch_keycenter" <;> cases dget r "lokey" <;> simp

theorem root_key_fallback_c6_witness :
    (normalizeRegion (.str "") [("pitch_keycenter", Value.int 62), ("lokey", Value.int 10)]
      = .ok (normFields [("pitch_keycenter", Value.int 62), ("lokey", Value.int 10)] none))
    ∧ (normFields [("pitch_keycenter", Value.int 62), ("lokey", Value.int 10)] none).root_key
        = .int 62
    ∧ (normFields [("lokey", Value.int 12)] none).root_key = .int 12
    ∧ (normFields [] none).root_key = .int 60 :=
  ⟨by decide,
   (root_key_fallback_c6 (.str "") [("pitch_keycenter", Value.int 62), ("lokey", Value.int 10)]
      _ (by decide)).trans (by decide),
   (root_key_fallback_c6 (.str "") [("lokey", Value.int 12)] _ (by decide)).trans (by decide),
   (root_key_fallback_c6 (.str "") [] _ (by decide)).trans (by decide)⟩

/-- Claim C7: every emitted descriptor carries a key range and a velocity
range (they are mandatory fields of `NormRegion`), and when the range
opcodes are absent from the region's mapping the ranges default to the
inclusive `[0, 127]`. -/
theorem range_defaults_c7 (dp : Value) (r : Dict) (d : NormRegion)
    (h : normalizeRegion dp r = .ok d)
    (hlk : dget r "lokey" = none) (hhk : dget r "hikey" = none)
    (hlv : dget r "lovel" = none) (hhv : dget r "hivel" = none) :
    d.key_lo = .int 0 ∧ d.key_hi = .int 127 ∧ d.vel_lo = .int 0 ∧ d.vel_hi = .int 127 := by
  unfold normalizeRegion at h
  cases hr : resolveSample dp (dget r "sample") with
  | error e => rw [hr] at h; cases h
  | ok s =>
    rw [hr] at h
    simp only [Except.map] at h
    cases h
    simp [normFields, hlk, hhk, hlv, hhv]

theorem range_defaults_c7_witness :
    normalizeRegion (.str "") [] = .ok (normFields [] none)
    ∧ ((normFields [] none).key_lo = .int 0 ∧ (normFields [] none).key_hi = .int 127
       ∧ (normFields [] none).vel_lo = .int 0 ∧ (normFields [] none).vel_hi = .int 127) :=
  ⟨by decide,
   range_defaults_c7 (.str "") [] (normFields [] none)
     (by decide) (by decide) (by decide) (by decide) (by decide)⟩

theorem extractOps_no_eq (l : List Char) (h : '=' ∉ l) : extractOps l = [] := by
  unfold extractOps
  simp only [extractGo]
  rw [List.drop_zero, findEqGo_none l 0 h]

theorem extractOps_dangling (rest : List Char) :
    ((extractOps ('=' :: rest)).head?).map Prod.fst = some "" := by
  unfold extractOps
  simp only [List.length_cons, extractGo]
  rw [List.drop_zero]
  simp only [findEqGo, if_pos rfl]
  cases hws : searchWWE (List.drop (0 + 1) ('=' :: rest)) with
  | none =>
    have hws2 : searchWWE rest = none := by simpa using hws
    simp [hws2, keyStartOf, rfindSpace, rfindSpaceGo, sliceL, pyStripL]
  | some m =>
    have hws2 : searchWWE rest = some m := by simpa using hws
    simp [hws2, keyStartOf, rfindSpace, rfindSpaceGo, sliceL, pyStripL]

/-- Claim C8 counterexample: the line `=5` has a dangling `=` with no key
characters before it, yet the tokenizer produces the pair `("", "5")` and the
line processor stores value `5` under the empty-string key in the active
scope — the line is not skipped. -/
theorem dangling_equals_c8_counterexample :
    extract_opcodes "=5" = [("", "5")]
    ∧ (runLines cinit ["<global>", "=5"]).global = [("", Value.int 5)] :=
  ⟨by decide, by decide⟩

/-- Claim C8, amended: a line with no `=` still tokenizes to the empty
sequence, but a line whose first `=` has no key characters before it is NOT
skipped: the tokenizer emits a pair whose key is the empty string, and the
line processor stores it into the current scope like any other opcode. -/
theorem tokenizer_edge_cases_c8 (l : List Char) (rest : List Char) (h : '=' ∉ l) :
    extractOps l = []
    ∧ ((extractOps ('=' :: rest)).head?).map Prod.fst = some ""
    ∧ (runLines cinit ["<global>", "=5"]).global = [("", Value.int 5)] :=
  ⟨extractOps_no_eq l h, extractOps_dangling rest, by decide⟩

theorem tokenizer_edge_cases_c8_witness :
    extractOps ['a', 'b'] = []
    ∧ ((extractOps ('=' :: ['5'])).head?).map Prod.fst = some ""
    ∧ (runLines cinit ["<global>", "=5"]).global = [("", Value.int 5)] :=
  tokenizer_edge_cases_c8 ['a', 'b'] ['5'] (by decide)

/-- Claim C9: attribute assignments on the same physical line as a
`<control>`, `<global>`, `<master>` or `<group>` marker are discarded — the
processor switches section (and for master/group creates the new group) and
ignores the remainder of the line entirely, for every tail `t` (comment-free,
as inline `//` truncation happens first); only a `<region>` marker line has
its trailing opcodes tokenized and applied to the new region. -/
theorem marker_lines_c9 (c : Core) (t : List Char) :
    (containsSub (['<', 'c', 'o', 'n', 't', 'r', 'o', 'l', '>'] ++ t) ['/', '/'] = false →
      lineStep c (['<', 'c', 'o', 'n', 't', 'r', 'o', 'l', '>'] ++ t) =
        ({ c with current_section := some .control }, none))
    ∧ (containsSub (['<', 'g', 'l', 'o', 'b', 'a', 'l', '>'] ++ t) ['/', '/'] = false →
      lineStep c (['<', 'g', 'l', 'o', 'b', 'a', 'l', '>'] ++ t) =
        ({ c with current_section := some .global }, none))
    ∧ (containsSub (['<', 'm', 'a', 's', 't', 'e', 'r', '>'] ++ t) ['/', '/'] = false →
      lineStep c (['<', 'm', 'a', 's', 't', 'e', 'r', '>'] ++ t) =
        ({ c with current_section := some .group, groups := c.groups ++ [⟨[], []⟩], has_group := true, has_region := false }, none))
    ∧ (containsSub (['<', 'g', 'r', 'o', 'u', 'p', '>'] ++ t) ['/', '/'] = false →
      lineStep c (['<', 'g', 'r', 'o', 'u', 'p', '>'] ++ t) =
        ({ c with current_section := some .group, groups := c.groups ++ [⟨[], []⟩], has_group := true, has_region := false }, none))
    ∧ (runLines cinit ["<global> volume=-3"]).global = []
    ∧ (runLines cinit ["<region> lokey=5"]).groups = [⟨[], [[("lokey", .int 5)]]⟩] := by
  refine ⟨?_, ?_, ?_, ?_, by decide, by decide⟩
  all_goals
    intro h
    simp only [List.cons_append, List.nil_append] at h
    simp [lineStep, lineStepBody, stripComment, h, List.isPrefixOf]

theorem marker_lines_c9_witness :
    lineStep cinit (['<', 'g', 'l', 'o', 'b', 'a', 'l', '>'] ++ [' ', 'v', '=', '1']) =
      ({ cinit with current_section := some .global }, none) :=
  (marker_lines_c9 cinit [' ', 'v', '=', '1']).2.1 (by decide)

/-- Claim C10 counterexample: a region whose `sample` attribute resolved to
the numeric value `0` does NOT make `normalize` raise: `0` is falsy in
Python, so both the join branch and the `.replace` branch are skipped and a
descriptor with the raw numeric sample is emitted. -/
theorem numeric_sample_c10_counterexample :
    (runLines cinit ["<region> sample=0"]).groups = [⟨[], [[("sample", Value.int 0)]]⟩]
    ∧ normalize (runLines cinit ["<region> sample=0"]) =
        .ok ⟨[], [normFields [("sample", Value.int 0)] (some (.int 0))]⟩
    ∧ normalize (runLines cinit ["<control>", "default_path=", "<region> sample=123"])
        = .error .attributeError :=
  ⟨by decide, by decide, by decide⟩

/-- Claim C10, amended: a region whose `sample` resolved to a *truthy*
(nonzero) numeric value makes region normalization raise — `TypeError` when
the control scope's `default_path` is truthy (a `Path` is joined with a
non-string), `AttributeError` otherwise (`.replace` on a non-string); a
falsy numeric sample (`0` or `0.0`) is instead emitted unchanged.  The two
closed conjuncts run the raising cases end to end through parse and
normalize. -/
theorem numeric_sample_raises_c10 (dp : Value) (r : Dict) (v : Value)
    (hs : dget r "sample" = some v)
    (hnum : (∃ n, v = .int n) ∨ (∃ q, v = .float q)) :
    (truthy v = true → truthy dp = true → normalizeRegion dp r = .error .typeError)
    ∧ (truthy v = true → truthy dp = false → normalizeRegion dp r = .error .attributeError)
    ∧ (truthy v = false → normalizeRegion dp r = .ok (normFields r (some v)))
    ∧ normalize (runLines cinit ["<region> sample=123"]) = .error .attributeError
    ∧ normalize (runLines cinit ["<control>", "default_path=d", "<region> sample=123"])
        = .error .typeError := by
  refine ⟨?_, ?_, ?_, by decide, by decide⟩
  all_goals
    intro hv
    first
    | (intro hdp
       rcases hnum with ⟨n, rfl⟩ | ⟨q, rfl⟩ <;>
         cases dp <;>
           simp_all [normalizeRegion, resolveSample, hs, truthy, Except.map])
    | (rcases hnum with ⟨n, rfl⟩ | ⟨q, rfl⟩ <;>
        simp_all [normalizeRegion, resolveSample, hs, truthy, Except.map])

theorem numeric_sample_raises_c10_witness :
    (normalizeRegion (.str "d") [("sample", Value.int 123)] = .error .typeError)
    ∧ (normalizeRegion (.str "") [("sample", Value.int 123)] = .error .attributeError)
    ∧ (normalizeRegion (.str "d") [("sample", Value.int 0)]
        = .ok (normFields [("sample", Value.int 0)] (some (.int 0)))) :=
  ⟨((numeric_sample_raises_c10 (.str "d") [("sample", Value.int 123)] (.int 123)
      (by decide) (.inl ⟨123, rfl⟩)).1 (by decide) (by decide)),
   ((numeric_sample_raises_c10 (.str "") [("sample", Value.int 123)] (.int 123)
      (by decide) (.inl ⟨123, rfl⟩)).2.1 (by decide) (by decide)),
   ((numeric_sample_raises_c10 (.str "d") [("sample", Value.int 0)] (.int 0)
      (by decide) (.inl ⟨0, rfl⟩)).2.2.1 (by decide))⟩

end InstFS

